import Mathlib

/-!
Verification of the itersynth waveform generator library.

The source is a Rust library (src/lib.rs) of composable, stateful waveform
generators driven through a trait with two operations,
next(step) : Option Sample and reset(), together with a textual
expression language (examples/playsound.rs) that builds generator graphs.

Embedding conventions:
* f32 sample and time values are modelled as exact rationals.  The Rust
  float remainder operator x % y (truncated-division remainder, result
  carrying the sign of the dividend) is modelled by fmod below.
* The 64-bit noise seed is a natural number reduced mod 2^64 at each
  arithmetic step, exactly as the overflowing u64 operations do.
* Each generator struct becomes one constructor of the inductive type Wave,
  carrying the same state fields the struct carries; next and reset are
  functions from Wave to Wave, mirroring the &mut self methods.
* The transcendental call (2.0 * PI * phase).sin() of SineWave::next is
  modelled by the computable rational function sin2pi; no verified claim
  depends on the numeric values of the sine table, only on the output being
  a fixed function of the stored phase.
-/

namespace Itersynth

/-- Truncation toward zero, as Rust float-to-int casts and the float
remainder operation use. -/
def rtrunc (q : ℚ) : ℤ :=
  if 0 ≤ q then ⌊q⌋ else ⌈q⌉

/-- Model of the Rust f32 remainder operator x % y: truncated-division
remainder, x - y * trunc (x / y), with the sign of the dividend. -/
def fmod (x y : ℚ) : ℚ :=
  x - y * ((rtrunc (x / y) : ℤ) : ℚ)

theorem fmod_one_eq_fract (x : ℚ) (hx : 0 ≤ x) : fmod x 1 = Int.fract x := by
  unfold fmod rtrunc
  rw [div_one, if_pos hx, Int.fract]
  ring

theorem fmod_one_nonneg (x : ℚ) (hx : 0 ≤ x) : 0 ≤ fmod x 1 := by
  rw [fmod_one_eq_fract x hx]
  exact Int.fract_nonneg x

theorem fmod_one_lt_one (x : ℚ) : fmod x 1 < 1 := by
  rcases le_or_lt 0 x with hx | hx
  · rw [fmod_one_eq_fract x hx]
    exact Int.fract_lt_one x
  · unfold fmod rtrunc
    rw [div_one, if_neg (not_le.mpr hx)]
    have h1 : x ≤ (⌈x⌉ : ℚ) := Int.le_ceil x
    linarith

theorem fmod_one_gt_neg_one (x : ℚ) : -1 < fmod x 1 := by
  rcases le_or_lt 0 x with hx | hx
  · rw [fmod_one_eq_fract x hx]
    have := Int.fract_nonneg x
    linarith
  · unfold fmod rtrunc
    rw [div_one, if_neg (not_le.mpr hx)]
    have h1 : (⌈x⌉ : ℚ) < x + 1 := Int.ceil_lt_add_one x
    linarith

/-- Initial seed of the noise generator (NOISE_INIT_SEED in the source). -/
def NOISE_INIT_SEED : ℕ := 123456789123456789

/-- One update of the noise seed: the linear congruential generator step of
NoiseWave::next, using overflowing u64 multiplication and addition. -/
def lcgStep (seed : ℕ) : ℕ :=
  (seed * 2862933555777941757 % 2 ^ 64 + 3037000493) % 2 ^ 64

/-- Computable rational stand-in for the transcendental f32 expression
(2.0 * PI * phase).sin() of SineWave::next.  No verified claim depends on
the numeric values of this table, only on the sine output being a fixed
function of the stored phase, so a fixed computable function is an adequate
model; we use the piecewise-linear approximation of one sine cycle
(0 at phase 0, 1 at phase 1/4, 0 at phase 1/2, -1 at phase 3/4). -/
def sin2pi (x : ℚ) : ℚ :=
  let y := fmod x 1
  if y < 1 / 4 then 4 * y
  else if y < 3 / 4 then 2 - 4 * y
  else 4 * y - 4

/-- A waveform generator graph together with its mutable state.  Each
constructor corresponds to one WaveGen implementation of the source and
carries exactly the state fields of the corresponding struct:

* const    : impl WaveGen for Sample (an infinite constant, no state);
* SineWave : freq sub-wave, phase;
* PulseWave / TriangleWave : freq sub-wave, duty sub-wave, phase;
* NoiseWave : freq sub-wave, seed (u64, kept as a natural mod 2^64), phase;
* SlideWave : pos, vel, half_acc, time;
* Sum / Product : the two child waves;
* Looped : the child wave;
* Delayed : the child wave, delay, time;
* Adshr : the five envelope parameters and time. -/
inductive Wave : Type where
  | const (value : ℚ)
  | SineWave (freq : Wave) (phase : ℚ)
  | PulseWave (freq : Wave) (duty : Wave) (phase : ℚ)
  | TriangleWave (freq : Wave) (duty : Wave) (phase : ℚ)
  | NoiseWave (freq : Wave) (seed : ℕ) (phase : ℚ)
  | SlideWave (pos vel half_acc time : ℚ)
  | Sum (wave1 wave2 : Wave)
  | Product (wave1 wave2 : Wave)
  | Looped (wave : Wave)
  | Delayed (wave : Wave) (delay time : ℚ)
  | Adshr (attack_time decay_time sustain_level hold_time release_time time : ℚ)
deriving DecidableEq

/-- WaveGen::reset, applied recursively: rewinds every time-dependent state
field (phase, elapsed time, noise seed) to its construction-time value. -/
def Wave.reset : Wave → Wave
  | .const v => .const v
  | .SineWave f _ => .SineWave f.reset 0
  | .PulseWave f d _ => .PulseWave f.reset d.reset 0
  | .TriangleWave f d _ => .TriangleWave f.reset d.reset 0
  | .NoiseWave f _ _ => .NoiseWave f.reset NOISE_INIT_SEED 0
  | .SlideWave pos vel ha _ => .SlideWave pos vel ha 0
  | .Sum w1 w2 => .Sum w1.reset w2.reset
  | .Product w1 w2 => .Product w1.reset w2.reset
  | .Looped w => .Looped w.reset
  | .Delayed w dl _ => .Delayed w.reset dl 0
  | .Adshr a d su h r _ => .Adshr a d su h r 0

/-- Helper: the wave itself, or its reset form when the flag is set. -/
def Wave.resetIf (fr : Bool) (w : Wave) : Wave :=
  if fr then w.reset else w

/-- WaveGen::next for every generator, evaluated on w itself when fr = false
and on w.reset when fr = true.  The flag exists so that the retry performed
by Looped::next after resetting its child (a call of next on a same-sized,
not structurally smaller, wave) stays structurally recursive: the retry on
the reset child is the fr = true evaluation on the child itself.  The
theorem nextAux_true_eq_reset below proves the flag faithful, and
next_Looped_eq restates the Looped case in exactly the shape of the source
(reset the already-advanced child, then advance it once more). -/
def Wave.nextAux : Bool → Wave → ℚ → Option ℚ × Wave
  | _, .const v, _ => (some v, .const v)
  | fr, .SineWave f p, s =>
      let p0 := if fr then 0 else p
      match Wave.nextAux fr f s with
      | (none, f') => (none, .SineWave f' p0)
      | (some fv, f') => (some (sin2pi p0), .SineWave f' (fmod (p0 + fv * s) 1))
  | fr, .PulseWave f d p, s =>
      let p0 := if fr then 0 else p
      match Wave.nextAux fr f s with
      | (none, f') => (none, .PulseWave f' (Wave.resetIf fr d) p0)
      | (some fv, f') =>
          match Wave.nextAux fr d s with
          | (none, d') => (none, .PulseWave f' d' p0)
          | (some dv, d') =>
              (some (if p0 < dv then 1 else -1),
               .PulseWave f' d' (fmod (p0 + fv * s) 1))
  | fr, .TriangleWave f d p, s =>
      let p0 := if fr then 0 else p
      match Wave.nextAux fr f s with
      | (none, f') => (none, .TriangleWave f' (Wave.resetIf fr d) p0)
      | (some fv, f') =>
          match Wave.nextAux fr d s with
          | (none, d') => (none, .TriangleWave f' d' p0)
          | (some dv, d') =>
              (some (if p0 < dv then 2 * p0 / dv - 1
                     else 1 - 2 * (p0 - dv) / (1 - dv)),
               .TriangleWave f' d' (fmod (p0 + fv * s) 1))
  | fr, .NoiseWave f sd p, s =>
      let p0 := if fr then 0 else p
      let sd0 := if fr then NOISE_INIT_SEED else sd
      match Wave.nextAux fr f s with
      | (none, f') => (none, .NoiseWave f' sd0 p0)
      | (some fv, f') =>
          let p1 := p0 + 2 * fv * s
          (some (if Nat.testBit sd0 (rtrunc p0).toNat then 1 else -1),
           .NoiseWave f' (if 64 ≤ p1 then lcgStep sd0 else sd0)
             (if 64 ≤ p1 then fmod p1 64 else p1))
  | fr, .SlideWave pos vel ha t, s =>
      let t0 := if fr then 0 else t
      (some (pos + (vel + ha * t0) * t0), .SlideWave pos vel ha (t0 + s))
  | fr, .Sum w1 w2, s =>
      match Wave.nextAux fr w1 s with
      | (some v1, w1') =>
          match Wave.nextAux fr w2 s with
          | (some v2, w2') => (some (v1 + v2), .Sum w1' w2')
          | (none, w2') => (some v1, .Sum w1' w2')
      | (none, w1') =>
          let r2 := Wave.nextAux fr w2 s
          (r2.1, .Sum w1' r2.2)
  | fr, .Product w1 w2, s =>
      match Wave.nextAux fr w1 s with
      | (some v1, w1') =>
          match Wave.nextAux fr w2 s with
          | (some v2, w2') => (some (v1 * v2), .Product w1' w2')
          | (none, w2') => (none, .Product w1' w2')
      | (none, w1') => (none, .Product w1' (Wave.resetIf fr w2))
  | fr, .Looped w, s =>
      match Wave.nextAux fr w s with
      | (some v, w1) => (some v, .Looped w1)
      | (none, _) =>
          let r2 := Wave.nextAux true w s
          (r2.1, .Looped r2.2)
  | fr, .Delayed w dl t, s =>
      let t0 := if fr then 0 else t
      if dl ≤ t0 then
        let r := Wave.nextAux fr w s
        (r.1, .Delayed r.2 dl t0)
      else
        let t1 := t0 + s
        if dl < t1 then (none, .Delayed (Wave.nextAux fr w (t1 - dl)).2 dl t1)
        else (none, .Delayed (Wave.resetIf fr w) dl t1)
  | fr, .Adshr a d su h r t, s =>
      let t0 := if fr then 0 else t
      if t0 < a then (some (t0 / a), .Adshr a d su h r (t0 + s))
      else
        let t1 := t0 - a
        if t1 < d then (some (1 - t1 / d * (1 - su)), .Adshr a d su h r (t0 + s))
        else
          let t2 := t1 - d
          if t2 < h then (some su, .Adshr a d su h r (t0 + s))
          else
            let t3 := t2 - h
            if t3 < r then (some ((1 - t3 / r) * su), .Adshr a d su h r (t0 + s))
            else (none, .Adshr a d su h r t0)

/-- WaveGen::next: gets the next sample value (or none when the waveform has
finished) together with the updated generator state. -/
def Wave.next (w : Wave) (s : ℚ) : Option ℚ × Wave :=
  Wave.nextAux false w s

/-- Wave::noise — fresh noise wave with the given frequency sub-wave. -/
def Wave.noise (freq : Wave) : Wave := .NoiseWave freq NOISE_INIT_SEED 0

/-- Wave::pulse — fresh pulse wave. -/
def Wave.pulse (freq duty : Wave) : Wave := .PulseWave freq duty 0

/-- Wave::sine — fresh sine wave. -/
def Wave.sine (freq : Wave) : Wave := .SineWave freq 0

/-- Wave::slide — fresh parabolic wave; the struct stores half_acc = 0.5 * acc. -/
def Wave.slide (pos vel acc : ℚ) : Wave := .SlideWave pos vel (acc / 2) 0

/-- Wave::triangle — fresh triangle wave. -/
def Wave.triangle (freq duty : Wave) : Wave := .TriangleWave freq duty 0

/-- Wave::delayed — delays this wave for a duration. -/
def Wave.delayed (w : Wave) (seconds : ℚ) : Wave := .Delayed w seconds 0

/-- Wave::looped — repeats this wave forever. -/
def Wave.looped (w : Wave) : Wave := .Looped w

/-- The Add impl for Wave: wave1 + wave2 builds a Sum. -/
def Wave.add (w1 w2 : Wave) : Wave := .Sum w1 w2

/-- The Mul impl for Wave: wave1 * wave2 builds a Product. -/
def Wave.mul (w1 w2 : Wave) : Wave := .Product w1 w2

/-- Wave::adshr — builds the Adshr envelope generator with time 0 and
multiplies it by self (the envelope is wave1 of the Product, self wave2). -/
def Wave.adshr (w : Wave) (attack_time decay_time sustain_level hold_time
    release_time : ℚ) : Wave :=
  Wave.mul (.Adshr attack_time decay_time sustain_level hold_time release_time 0) w

/-- Drives a wave through a list of steps, collecting each call's output and
the final state: the repeated next calls a driver performs. -/
def Wave.run : Wave → List ℚ → List (Option ℚ) × Wave
  | w, [] => ([], w)
  | w, s :: rest =>
      let r := Wave.next w s
      let rs := Wave.run r.2 rest
      (r.1 :: rs.1, rs.2)

/-- The outputs of a run. -/
def Wave.runOutputs (w : Wave) (steps : List ℚ) : List (Option ℚ) :=
  (Wave.run w steps).1

/-- The final state of a run. -/
def Wave.runState (w : Wave) (steps : List ℚ) : Wave :=
  (Wave.run w steps).2

/-- Decides whether every state field of the graph still has its
construction-time value, i.e. whether the graph is exactly one built by the
public constructors and combinators, before any next call. -/
def Wave.fresh : Wave → Bool
  | .const _ => true
  | .SineWave f p => f.fresh && p == 0
  | .PulseWave f d p => f.fresh && d.fresh && p == 0
  | .TriangleWave f d p => f.fresh && d.fresh && p == 0
  | .NoiseWave f sd p => f.fresh && sd == NOISE_INIT_SEED && p == 0
  | .SlideWave _ _ _ t => t == 0
  | .Sum w1 w2 => w1.fresh && w2.fresh
  | .Product w1 w2 => w1.fresh && w2.fresh
  | .Looped w => w.fresh
  | .Delayed w _ t => w.fresh && t == 0
  | .Adshr _ _ _ _ _ t => t == 0

/-- The stored phase accumulator of an oscillator node (0 for other nodes). -/
def Wave.phaseOf : Wave → ℚ
  | .SineWave _ p => p
  | .PulseWave _ _ p => p
  | .TriangleWave _ _ p => p
  | .NoiseWave _ _ p => p
  | _ => 0

/-- Instrumentation of one TriangleWave::next call: when the node is a
triangle wave and both its frequency and duty sub-waves yield a value, this
returns the duty value together with the denominator of the quotient on the
branch the ramp formula takes (duty for phase < duty, else 1 - duty). -/
def Wave.triCall (w : Wave) (s : ℚ) : Option (ℚ × ℚ) :=
  match w with
  | .TriangleWave f d p =>
      match (Wave.next f s).1 with
      | none => none
      | some _ =>
          match (Wave.next d s).1 with
          | none => none
          | some dv => some (dv, if p < dv then dv else 1 - dv)
  | _ => none

theorem Wave.reset_reset : ∀ w : Wave, w.reset.reset = w.reset := by
  intro w
  induction w with
  | const v => simp [Wave.reset]
  | SineWave f p ihf => simp [Wave.reset, ihf]
  | PulseWave f d p ihf ihd => simp [Wave.reset, ihf, ihd]
  | TriangleWave f d p ihf ihd => simp [Wave.reset, ihf, ihd]
  | NoiseWave f sd p ihf => simp [Wave.reset, ihf]
  | SlideWave pos vel ha t => simp [Wave.reset]
  | Sum w1 w2 ih1 ih2 => simp [Wave.reset, ih1, ih2]
  | Product w1 w2 ih1 ih2 => simp [Wave.reset, ih1, ih2]
  | Looped w ihw => simp [Wave.reset, ihw]
  | Delayed w dl t ihw => simp [Wave.reset, ihw]
  | Adshr a d su h r t => simp [Wave.reset]

theorem Wave.reset_resetIf (fr : Bool) (w : Wave) :
    (Wave.resetIf fr w).reset = w.reset := by
  cases fr <;> simp [Wave.resetIf, Wave.reset_reset]

/-- Advancing a wave never changes what reset rewinds it to: next only
replaces state fields, and reset overwrites every state field. -/
theorem Wave.reset_nextAux :
    ∀ (w : Wave) (fr : Bool) (s : ℚ), ((Wave.nextAux fr w s).2).reset = w.reset := by
  intro w
  induction w with
  | const v => intro fr s; simp [Wave.nextAux, Wave.reset]
  | SineWave f p ihf =>
      intro fr s
      rcases h : Wave.nextAux fr f s with ⟨of, f'⟩
      have hf : f'.reset = f.reset := by have := ihf fr s; rw [h] at this; exact this
      cases of <;> simp [Wave.nextAux, h, Wave.reset, hf]
  | PulseWave f d p ihf ihd =>
      intro fr s
      rcases h : Wave.nextAux fr f s with ⟨of, f'⟩
      have hf : f'.reset = f.reset := by have := ihf fr s; rw [h] at this; exact this
      rcases h2 : Wave.nextAux fr d s with ⟨od, d'⟩
      have hd : d'.reset = d.reset := by have := ihd fr s; rw [h2] at this; exact this
      cases of <;> cases od <;>
        simp [Wave.nextAux, h, h2, Wave.reset, hf, hd, Wave.reset_resetIf]
  | TriangleWave f d p ihf ihd =>
      intro fr s
      rcases h : Wave.nextAux fr f s with ⟨of, f'⟩
      have hf : f'.reset = f.reset := by have := ihf fr s; rw [h] at this; exact this
      rcases h2 : Wave.nextAux fr d s with ⟨od, d'⟩
      have hd : d'.reset = d.reset := by have := ihd fr s; rw [h2] at this; exact this
      cases of <;> cases od <;>
        simp [Wave.nextAux, h, h2, Wave.reset, hf, hd, Wave.reset_resetIf]
  | NoiseWave f sd p ihf =>
      intro fr s
      rcases h : Wave.nextAux fr f s with ⟨of, f'⟩
      have hf : f'.reset = f.reset := by have := ihf fr s; rw [h] at this; exact this
      cases of <;> simp [Wave.nextAux, h, Wave.reset, hf]
  | SlideWave pos vel ha t => intro fr s; simp [Wave.nextAux, Wave.reset]
  | Sum w1 w2 ih1 ih2 =>
      intro fr s
      rcases h1 : Wave.nextAux fr w1 s with ⟨o1, w1'⟩
      have e1 : w1'.reset = w1.reset := by have := ih1 fr s; rw [h1] at this; exact this
      rcases h2 : Wave.nextAux fr w2 s with ⟨o2, w2'⟩
      have e2 : w2'.reset = w2.reset := by have := ih2 fr s; rw [h2] at this; exact this
      cases o1 <;> cases o2 <;> simp [Wave.nextAux, h1, h2, Wave.reset, e1, e2]
  | Product w1 w2 ih1 ih2 =>
      intro fr s
      rcases h1 : Wave.nextAux fr w1 s with ⟨o1, w1'⟩
      have e1 : w1'.reset = w1.reset := by have := ih1 fr s; rw [h1] at this; exact this
      rcases h2 : Wave.nextAux fr w2 s with ⟨o2, w2'⟩
      have e2 : w2'.reset = w2.reset := by have := ih2 fr s; rw [h2] at this; exact this
      cases o1 <;> cases o2 <;>
        simp [Wave.nextAux, h1, h2, Wave.reset, e1, e2, Wave.reset_resetIf]
  | Looped w ihw =>
      intro fr s
      rcases h1 : Wave.nextAux fr w s with ⟨o1, w1⟩
      have e1 : w1.reset = w.reset := by have := ihw fr s; rw [h1] at this; exact this
      rcases h2 : Wave.nextAux true w s with ⟨o2, w2⟩
      have e2 : w2.reset = w.reset := by have := ihw true s; rw [h2] at this; exact this
      cases o1 <;> simp [Wave.nextAux, h1, h2, Wave.reset, e1, e2]
  | Delayed w dl t ihw =>
      intro fr s
      cases fr <;>
        (simp only [Wave.nextAux, Bool.false_eq_true, if_false, if_true]
         split_ifs <;>
          simp [Wave.reset, Wave.resetIf, Wave.reset_reset, ihw])
  | Adshr a d su h r t =>
      intro fr s
      cases fr <;>
        (simp only [Wave.nextAux, Bool.false_eq_true, if_false, if_true]
         split_ifs <;> simp [Wave.reset])

theorem Wave.reset_next (w : Wave) (s : ℚ) :
    ((Wave.next w s).2).reset = w.reset :=
  Wave.reset_nextAux w false s

/-- Evaluating nextAux in fresh mode on a reset wave is the same as on the
wave itself: reset is idempotent node by node. -/
theorem Wave.nextAux_true_reset :
    ∀ (w : Wave) (s : ℚ), Wave.nextAux true w.reset s = Wave.nextAux true w s := by
  intro w
  induction w with
  | const v => intro s; simp [Wave.reset, Wave.nextAux]
  | SineWave f p ihf => intro s; simp [Wave.reset, Wave.nextAux, ihf]
  | PulseWave f d p ihf ihd =>
      intro s
      simp only [Wave.reset, Wave.nextAux, ihf s, ihd s]
      rcases Wave.nextAux true f s with ⟨of, f'⟩
      cases of <;> simp [Wave.resetIf, Wave.reset_reset]
  | TriangleWave f d p ihf ihd =>
      intro s
      simp only [Wave.reset, Wave.nextAux, ihf s, ihd s]
      rcases Wave.nextAux true f s with ⟨of, f'⟩
      cases of <;> simp [Wave.resetIf, Wave.reset_reset]
  | NoiseWave f sd p ihf => intro s; simp [Wave.reset, Wave.nextAux, ihf]
  | SlideWave pos vel ha t => intro s; simp [Wave.reset, Wave.nextAux]
  | Sum w1 w2 ih1 ih2 => intro s; simp [Wave.reset, Wave.nextAux, ih1, ih2]
  | Product w1 w2 ih1 ih2 =>
      intro s
      simp only [Wave.reset, Wave.nextAux, ih1 s, ih2 s]
      rcases Wave.nextAux true w1 s with ⟨o1, w1'⟩
      cases o1 <;> simp [Wave.resetIf, Wave.reset_reset]
  | Looped w ihw => intro s; simp [Wave.reset, Wave.nextAux, ihw]
  | Delayed w dl t ihw =>
      intro s
      simp only [Wave.reset, Wave.nextAux, if_true]
      split_ifs <;> simp [ihw, Wave.resetIf, Wave.reset_reset]
  | Adshr a d su h r t => intro s; simp [Wave.reset, Wave.nextAux]

/-- The fresh-mode evaluation is exactly next on the reset wave. -/
theorem Wave.nextAux_true_eq :
    ∀ (w : Wave) (s : ℚ), Wave.nextAux true w s = Wave.next w.reset s := by
  intro w
  induction w with
  | const v => intro s; simp [Wave.reset, Wave.nextAux, Wave.next]
  | SineWave f p ihf =>
      intro s
      simp [Wave.reset, Wave.nextAux, Wave.next, ihf]
  | PulseWave f d p ihf ihd =>
      intro s
      simp only [Wave.reset, Wave.nextAux, Wave.next, ihf s, ihd s]
      rcases Wave.nextAux false f.reset s with ⟨of, f'⟩
      cases of <;> simp [Wave.resetIf]
  | TriangleWave f d p ihf ihd =>
      intro s
      simp only [Wave.reset, Wave.nextAux, Wave.next, ihf s, ihd s]
      rcases Wave.nextAux false f.reset s with ⟨of, f'⟩
      cases of <;> simp [Wave.resetIf]
  | NoiseWave f sd p ihf =>
      intro s
      simp [Wave.reset, Wave.nextAux, Wave.next, ihf]
  | SlideWave pos vel ha t => intro s; simp [Wave.reset, Wave.nextAux, Wave.next]
  | Sum w1 w2 ih1 ih2 =>
      intro s
      simp [Wave.reset, Wave.nextAux, Wave.next, ih1, ih2]
  | Product w1 w2 ih1 ih2 =>
      intro s
      simp only [Wave.reset, Wave.nextAux, Wave.next, ih1 s, ih2 s]
      rcases Wave.nextAux false w1.reset s with ⟨o1, w1'⟩
      cases o1 <;> simp [Wave.resetIf, Wave.reset_reset]
  | Looped w ihw =>
      intro s
      simp only [Wave.reset, Wave.nextAux, Wave.next]
      rw [Wave.nextAux_true_reset w s]
      simp [ihw s, Wave.next]
  | Delayed w dl t ihw =>
      intro s
      simp only [Wave.reset, Wave.nextAux, Wave.next, if_true,
        Bool.false_eq_true, if_false]
      split_ifs <;> simp [Wave.next] at ihw ⊢ <;>
        simp [ihw, Wave.resetIf, Wave.reset_reset]
  | Adshr a d su h r t => intro s; simp [Wave.reset, Wave.nextAux, Wave.next]

/-- The Looped case of next, restated in exactly the shape of the source:
advance the child; if it ended, reset the (already advanced) child and
advance it once more, returning that second result. -/
theorem Wave.next_Looped_eq (w : Wave) (s : ℚ) :
    Wave.next (.Looped w) s =
      match Wave.next w s with
      | (some v, w1) => (some v, .Looped w1)
      | (none, w1) =>
          ((Wave.next w1.reset s).1, .Looped (Wave.next w1.reset s).2) := by
  rcases h : Wave.next w s with ⟨o, w1⟩
  have hr : w1.reset = w.reset := by
    have := Wave.reset_next w s; rw [h] at this; exact this
  simp only [Wave.next] at h
  cases o with
  | some v => simp [Wave.next, Wave.nextAux, h]
  | none => simp [Wave.next, Wave.nextAux, h, hr, Wave.nextAux_true_eq]

theorem Wave.reset_runState : ∀ (steps : List ℚ) (w : Wave),
    (Wave.runState w steps).reset = w.reset := by
  intro steps
  induction steps with
  | nil => intro w; simp [Wave.runState, Wave.run]
  | cons s rest ih =>
      intro w
      simp only [Wave.runState, Wave.run]
      have := ih (Wave.next w s).2
      simp only [Wave.runState] at this
      rw [this, Wave.reset_next]

theorem Wave.fresh_reset : ∀ w : Wave, w.fresh = true → w.reset = w := by
  intro w
  induction w with
  | const v => intro _; simp [Wave.reset]
  | SineWave f p ihf =>
      intro h
      simp only [Wave.fresh, Bool.and_eq_true, beq_iff_eq] at h
      simp [Wave.reset, ihf h.1, h.2]
  | PulseWave f d p ihf ihd =>
      intro h
      simp only [Wave.fresh, Bool.and_eq_true, beq_iff_eq] at h
      simp [Wave.reset, ihf h.1.1, ihd h.1.2, h.2]
  | TriangleWave f d p ihf ihd =>
      intro h
      simp only [Wave.fresh, Bool.and_eq_true, beq_iff_eq] at h
      simp [Wave.reset, ihf h.1.1, ihd h.1.2, h.2]
  | NoiseWave f sd p ihf =>
      intro h
      simp only [Wave.fresh, Bool.and_eq_true, beq_iff_eq] at h
      simp [Wave.reset, ihf h.1.1, h.1.2, h.2]
  | SlideWave pos vel ha t =>
      intro h
      simp only [Wave.fresh, beq_iff_eq] at h
      simp [Wave.reset, h]
  | Sum w1 w2 ih1 ih2 =>
      intro h
      simp only [Wave.fresh, Bool.and_eq_true] at h
      simp [Wave.reset, ih1 h.1, ih2 h.2]
  | Product w1 w2 ih1 ih2 =>
      intro h
      simp only [Wave.fresh, Bool.and_eq_true] at h
      simp [Wave.reset, ih1 h.1, ih2 h.2]
  | Looped w ihw =>
      intro h
      simp only [Wave.fresh] at h
      simp [Wave.reset, ihw h]
  | Delayed w dl t ihw =>
      intro h
      simp only [Wave.fresh, Bool.and_eq_true, beq_iff_eq] at h
      simp [Wave.reset, ihw h.1, h.2]
  | Adshr a d su h r t =>
      intro hh
      simp only [Wave.fresh, beq_iff_eq] at hh
      simp [Wave.reset, hh]

/-- The per-call output of Sum::next as a function of its children's
outputs: both values when both yielded, the live child's value when exactly
one yielded, end-of-stream when neither did. -/
def sumOut : Option ℚ → Option ℚ → Option ℚ
  | some v1, some v2 => some (v1 + v2)
  | some v1, none => some v1
  | none, o2 => o2

theorem sumOut_comm (o1 o2 : Option ℚ) : sumOut o1 o2 = sumOut o2 o1 := by
  cases o1 <;> cases o2 <;> simp [sumOut, add_comm]

theorem Wave.next_Sum (w1 w2 : Wave) (s : ℚ) :
    Wave.next (.Sum w1 w2) s =
      (sumOut (Wave.next w1 s).1 (Wave.next w2 s).1,
       .Sum (Wave.next w1 s).2 (Wave.next w2 s).2) := by
  rcases h1 : Wave.next w1 s with ⟨o1, w1'⟩
  rcases h2 : Wave.next w2 s with ⟨o2, w2'⟩
  simp only [Wave.next] at h1 h2
  cases o1 <;> cases o2 <;> simp [Wave.next, Wave.nextAux, h1, h2, sumOut]

theorem Wave.next_Product_none_iff (w1 w2 : Wave) (s : ℚ) :
    (Wave.next (.Product w1 w2) s).1 = none ↔
      (Wave.next w1 s).1 = none ∨ (Wave.next w2 s).1 = none := by
  rcases h1 : Wave.next w1 s with ⟨o1, w1'⟩
  rcases h2 : Wave.next w2 s with ⟨o2, w2'⟩
  simp only [Wave.next] at h1 h2
  cases o1 <;> cases o2 <;> simp [Wave.next, Wave.nextAux, h1, h2]

/-- Claim C1 as stated is false at this input: Product::next short-circuits
on its first child — here wave1 (an already-finished envelope) ends, the
call returns end-of-stream, and wave2 (a slide whose state a next call
always changes) is left completely untouched, contradicting the claim that
the other child is still advanced on such a call. -/
theorem C1_product_counterexample :
    (Wave.next (.Product (.Adshr 0 0 0 0 0 0) (.SlideWave 0 1 0 0)) 1).1 = none ∧
    (Wave.next (.Product (.Adshr 0 0 0 0 0 0) (.SlideWave 0 1 0 0)) 1).2 =
      .Product (.Adshr 0 0 0 0 0 0) (.SlideWave 0 1 0 0) ∧
    (Wave.next (.SlideWave 0 1 0 0) 1).2 ≠ .SlideWave 0 1 0 0 := by
  refine ⟨?_, ?_, ?_⟩ <;> norm_num [Wave.next, Wave.nextAux, Wave.resetIf]

/-- Claim C1 (amended): on a Product next call, wave1 is always advanced;
when wave1 yields a value, wave2 is advanced as well, and if wave2 has then
ended the Product returns end-of-stream for that call even though wave1 was
still advanced; but when wave1 has ended, the call returns end-of-stream
without advancing wave2 (the second child is short-circuited).  The Product
ends exactly when either child's call ended, and a 2-sample finite wave
multiplied by an infinite constant yields exactly 2 samples and then ends. -/
theorem C1_product_strict_amended :
    (∀ w1 w2 : Wave, ∀ s v1 : ℚ, (Wave.next w1 s).1 = some v1 →
      (Wave.next (.Product w1 w2) s).2 =
        .Product (Wave.next w1 s).2 (Wave.next w2 s).2) ∧
    (∀ w1 w2 : Wave, ∀ s : ℚ, ((Wave.next (.Product w1 w2) s).1 = none ↔
      (Wave.next w1 s).1 = none ∨ (Wave.next w2 s).1 = none)) ∧
    (∀ w1 w2 : Wave, ∀ s : ℚ, (Wave.next w1 s).1 = none →
      (Wave.next (.Product w1 w2) s).2 = .Product (Wave.next w1 s).2 w2) ∧
    Wave.runOutputs (.Product (.Adshr 2 0 0 0 0 0) (.const 3)) [1, 1, 1, 1] =
      [some 0, some (3 / 2), none, none] := by
  refine ⟨?_, Wave.next_Product_none_iff, ?_,
    by norm_num [Wave.runOutputs, Wave.run, Wave.next, Wave.nextAux]⟩
  · intro w1 w2 s v1 h1
    rcases h1' : Wave.next w1 s with ⟨o1, w1'⟩
    rw [h1'] at h1
    simp only at h1
    subst h1
    rcases h2 : Wave.next w2 s with ⟨o2, w2'⟩
    simp only [Wave.next] at h1' h2
    cases o2 <;> simp [Wave.next, Wave.nextAux, h1', h2]
  · intro w1 w2 s h1
    rcases h1' : Wave.next w1 s with ⟨o1, w1'⟩
    rw [h1'] at h1
    simp only at h1
    subst h1
    simp only [Wave.next] at h1'
    simp [Wave.next, Wave.nextAux, h1', Wave.resetIf]

theorem C1_product_strict_amended_witness :
    (Wave.next (.Product (.const 2) (.const 3)) 1).2 =
      .Product (Wave.next (.const 2) 1).2 (Wave.next (.const 3) 1).2 ∧
    (Wave.next (.Product (.Adshr 0 0 0 0 0 0) (.SlideWave 0 1 0 0)) 1).2 =
      .Product (Wave.next (.Adshr 0 0 0 0 0 0) 1).2 (.SlideWave 0 1 0 0) :=
  ⟨C1_product_strict_amended.1 (.const 2) (.const 3) 1 2
     (by norm_num [Wave.next, Wave.nextAux]),
   C1_product_strict_amended.2.2.1 (.Adshr 0 0 0 0 0 0) (.SlideWave 0 1 0 0) 1
     (by norm_num [Wave.next, Wave.nextAux])⟩

/-- Claim C4: Sum is commutative (equal output streams for every step
sequence), returns the live child's value as-is when exactly one child has
ended, ends only on a call in which both children ended, and a wave summed
with an infinite constant never ends. -/
theorem C4_sum_permissive :
    (∀ w1 w2 : Wave, ∀ steps : List ℚ,
      Wave.runOutputs (.Sum w1 w2) steps = Wave.runOutputs (.Sum w2 w1) steps) ∧
    (∀ w1 w2 : Wave, ∀ s : ℚ, ((Wave.next (.Sum w1 w2) s).1 = none ↔
      (Wave.next w1 s).1 = none ∧ (Wave.next w2 s).1 = none)) ∧
    (∀ w1 w2 : Wave, ∀ s v : ℚ, (Wave.next w1 s).1 = some v →
      (Wave.next w2 s).1 = none → (Wave.next (.Sum w1 w2) s).1 = some v) ∧
    (∀ w1 w2 : Wave, ∀ s v : ℚ, (Wave.next w1 s).1 = none →
      (Wave.next w2 s).1 = some v → (Wave.next (.Sum w1 w2) s).1 = some v) ∧
    (∀ w : Wave, ∀ c : ℚ, ∀ steps : List ℚ,
      none ∉ Wave.runOutputs (.Sum w (.const c)) steps) := by
  refine ⟨?_, ?_, ?_, ?_, ?_⟩
  · intro w1 w2 steps
    induction steps generalizing w1 w2 with
    | nil => simp [Wave.runOutputs, Wave.run]
    | cons s rest ih =>
        have tails := ih (Wave.next w1 s).2 (Wave.next w2 s).2
        simp only [Wave.runOutputs] at tails ⊢
        simp only [Wave.run, Wave.next_Sum]
        rw [sumOut_comm]
        simpa using tails
  · intro w1 w2 s
    rw [Wave.next_Sum]
    rcases (Wave.next w1 s).1 with _ | v1 <;> rcases (Wave.next w2 s).1 with _ | v2 <;>
      simp [sumOut]
  · intro w1 w2 s v h1 h2
    rw [Wave.next_Sum, h1, h2]
    simp [sumOut]
  · intro w1 w2 s v h1 h2
    rw [Wave.next_Sum, h1, h2]
    simp [sumOut]
  · intro w c steps
    induction steps generalizing w with
    | nil => simp [Wave.runOutputs, Wave.run]
    | cons s rest ih =>
        have hc : Wave.next (.const c) s = (some c, .const c) := by
          simp [Wave.next, Wave.nextAux]
        simp only [Wave.runOutputs, Wave.run, Wave.next_Sum, hc, List.mem_cons]
        intro hmem
        rcases hmem with h | h
        · rcases ho : (Wave.next w s).1 with _ | v <;> rw [ho] at h <;>
            simp [sumOut] at h
        · have := ih (Wave.next w s).2
          simp only [Wave.runOutputs] at this
          exact this (by simpa using h)

theorem C4_sum_permissive_witness :
    Wave.runOutputs (.Sum (.Adshr 3 0 0 0 0 0) (.const 5)) [1, 1] =
      Wave.runOutputs (.Sum (.const 5) (.Adshr 3 0 0 0 0 0)) [1, 1] ∧
    (Wave.next (.Sum (.Adshr 0 0 0 0 0 0) (.const 5)) 1).1 = some 5 ∧
    none ∉ Wave.runOutputs (.Sum (.Adshr 3 0 0 0 0 0) (.const 5)) [1, 1, 1, 1] :=
  ⟨C4_sum_permissive.1 (.Adshr 3 0 0 0 0 0) (.const 5) [1, 1],
   C4_sum_permissive.2.2.2.1 (.Adshr 0 0 0 0 0 0) (.const 5) 1 5
     (by norm_num [Wave.next, Wave.nextAux]) (by norm_num [Wave.next, Wave.nextAux]),
   C4_sum_permissive.2.2.2.2 (.Adshr 3 0 0 0 0 0) 5 [1, 1, 1, 1]⟩

/-- Modelled from the spec for the refinement comparison: the adshr
combinator "returns the product of a freshly-built envelope generator and
self" — wave1 is a new envelope generator with the given parameters and
elapsed time zero, wave2 is the wrapped wave. -/
def adshrSpec (w : Wave) (attack decay sustain hold release : ℚ) : Wave :=
  Wave.mul (.Adshr attack decay sustain hold release 0) w

/-- Claim C7: Wave::adshr is exactly the Product of a freshly-built ADSHR
envelope generator and the wave itself — the same graph, hence the same
next and reset behaviour on every step sequence — and it inherits Product's
termination rule: it ends exactly when the envelope or the wave ends. -/
theorem C7_adshr_refinement :
    (∀ w : Wave, ∀ a d su h r : ℚ,
      Wave.adshr w a d su h r = adshrSpec w a d su h r) ∧
    (∀ w : Wave, ∀ a d su h r : ℚ, ∀ steps : List ℚ,
      Wave.run (Wave.adshr w a d su h r) steps =
        Wave.run (adshrSpec w a d su h r) steps) ∧
    (∀ w : Wave, ∀ a d su h r : ℚ,
      (Wave.adshr w a d su h r).reset = (adshrSpec w a d su h r).reset) ∧
    (∀ w : Wave, ∀ a d su h r s : ℚ,
      ((Wave.next (Wave.adshr w a d su h r) s).1 = none ↔
        (Wave.next (.Adshr a d su h r 0) s).1 = none ∨
        (Wave.next w s).1 = none)) := by
  refine ⟨fun w a d su h r => rfl, fun w a d su h r steps => rfl,
    fun w a d su h r => rfl, ?_⟩
  intro w a d su h r s
  exact Wave.next_Product_none_iff (.Adshr a d su h r 0) w s

theorem C7_adshr_refinement_witness :
    Wave.adshr (.const 2) 1 0 0 0 0 = adshrSpec (.const 2) 1 0 0 0 0 ∧
    Wave.run (Wave.adshr (.const 2) 1 0 0 0 0) [1, 1] =
      Wave.run (adshrSpec (.const 2) 1 0 0 0 0) [1, 1] ∧
    ((Wave.next (Wave.adshr (.const 2) 1 0 0 0 0) 1).1 = none ↔
      (Wave.next (.Adshr 1 0 0 0 0 0) 1).1 = none ∨
      (Wave.next (.const 2) 1).1 = none) :=
  ⟨C7_adshr_refinement.1 (.const 2) 1 0 0 0 0,
   C7_adshr_refinement.2.1 (.const 2) 1 0 0 0 0 [1, 1],
   C7_adshr_refinement.2.2.2 (.const 2) 1 0 0 0 0 1⟩

/-- Claim C2: for every waveform graph built from the public constructors
and combinators (every state field at its construction-time value), after
any number of next calls, reset followed by replaying next with any step
sequence reproduces exactly the outputs of a fresh run from construction:
reset recursively rewinds every phase, elapsed time and noise seed. -/
theorem C2_reset_replay (w : Wave) (hw : w.fresh = true) :
    ∀ prior replay : List ℚ,
      Wave.runOutputs ((Wave.runState w prior).reset) replay =
        Wave.runOutputs w replay := by
  intro prior replay
  rw [Wave.reset_runState, Wave.fresh_reset w hw]

theorem C2_reset_replay_witness :
    Wave.runOutputs ((Wave.runState (Wave.noise (.const 16)) [1, 1]).reset) [1, 1] =
      Wave.runOutputs (Wave.noise (.const 16)) [1, 1] :=
  C2_reset_replay (Wave.noise (.const 16)) (by decide) [1, 1] [1, 1]

/-- Claim C3 as stated is false at this input: a sine oscillator whose
frequency sub-wave is the constant -1, stepped by 1/2 from a fresh state,
yields a value on that call yet stores phase -1/2, which does not lie in
[0, 1): the Rust float remainder keeps the sign of its dividend. -/
theorem C3_phase_invariant_counterexample :
    (Wave.next (.SineWave (.const (-1)) 0) (1 / 2)).1.isSome = true ∧
    (Wave.next (.SineWave (.const (-1)) 0) (1 / 2)).2 =
      .SineWave (.const (-1)) (-(1 / 2)) ∧
    ¬ (0 ≤ (-(1 / 2) : ℚ)) := by
  refine ⟨?_, ?_, by norm_num⟩ <;>
    norm_num [Wave.next, Wave.nextAux, fmod, rtrunc]

/-- Claim C3 (amended): for Sine, Pulse and Triangle, on every next call
that yields a value and whose phase increment (frequency value times step)
is nonnegative, a stored phase in [0, 1) is wrapped by the modulo back into
[0, 1) — never clamped; with a negative increment (negative frequency or
negative step) the truncated remainder can leave a negative phase. -/
theorem C3_phase_invariant_amended :
    (∀ f : Wave, ∀ p s fv : ℚ, 0 ≤ p → p < 1 →
      (Wave.next f s).1 = some fv → 0 ≤ fv * s →
      ((Wave.next (.SineWave f p) s).1.isSome = true ∧
       (Wave.next (.SineWave f p) s).2 =
         .SineWave (Wave.next f s).2 (fmod (p + fv * s) 1) ∧
       0 ≤ (Wave.next (.SineWave f p) s).2.phaseOf ∧
       (Wave.next (.SineWave f p) s).2.phaseOf < 1)) ∧
    (∀ f d : Wave, ∀ p s fv dv : ℚ, 0 ≤ p → p < 1 →
      (Wave.next f s).1 = some fv → (Wave.next d s).1 = some dv → 0 ≤ fv * s →
      ((Wave.next (.PulseWave f d p) s).1.isSome = true ∧
       0 ≤ (Wave.next (.PulseWave f d p) s).2.phaseOf ∧
       (Wave.next (.PulseWave f d p) s).2.phaseOf < 1)) ∧
    (∀ f d : Wave, ∀ p s fv dv : ℚ, 0 ≤ p → p < 1 →
      (Wave.next f s).1 = some fv → (Wave.next d s).1 = some dv → 0 ≤ fv * s →
      ((Wave.next (.TriangleWave f d p) s).1.isSome = true ∧
       0 ≤ (Wave.next (.TriangleWave f d p) s).2.phaseOf ∧
       (Wave.next (.TriangleWave f d p) s).2.phaseOf < 1)) := by
  refine ⟨?_, ?_, ?_⟩
  · intro f p s fv hp0 hp1 hf hinc
    rcases hf' : Wave.next f s with ⟨of, f'⟩
    rw [hf'] at hf
    simp only at hf
    subst hf
    simp only [Wave.next] at hf'
    simp only [Wave.next, Wave.nextAux, hf', Wave.phaseOf, Bool.false_eq_true,
      if_false]
    refine ⟨by trivial, by trivial, ?_, fmod_one_lt_one _⟩
    exact fmod_one_nonneg _ (by linarith)
  · intro f d p s fv dv hp0 hp1 hf hd hinc
    rcases hf' : Wave.next f s with ⟨of, f'⟩
    rw [hf'] at hf
    simp only at hf
    subst hf
    rcases hd' : Wave.next d s with ⟨od, d'⟩
    rw [hd'] at hd
    simp only at hd
    subst hd
    simp only [Wave.next] at hf' hd'
    simp only [Wave.next, Wave.nextAux, hf', hd', Wave.phaseOf,
      Bool.false_eq_true, if_false]
    refine ⟨by trivial, ?_, fmod_one_lt_one _⟩
    exact fmod_one_nonneg _ (by linarith)
  · intro f d p s fv dv hp0 hp1 hf hd hinc
    rcases hf' : Wave.next f s with ⟨of, f'⟩
    rw [hf'] at hf
    simp only at hf
    subst hf
    rcases hd' : Wave.next d s with ⟨od, d'⟩
    rw [hd'] at hd
    simp only at hd
    subst hd
    simp only [Wave.next] at hf' hd'
    simp only [Wave.next, Wave.nextAux, hf', hd', Wave.phaseOf,
      Bool.false_eq_true, if_false]
    refine ⟨by trivial, ?_, fmod_one_lt_one _⟩
    exact fmod_one_nonneg _ (by linarith)

theorem C3_phase_invariant_amended_witness :
    (Wave.next (.SineWave (.const 1) 0) (1 / 2)).1.isSome = true ∧
    0 ≤ (Wave.next (.SineWave (.const 1) 0) (1 / 2)).2.phaseOf ∧
    (Wave.next (.SineWave (.const 1) 0) (1 / 2)).2.phaseOf < 1 := by
  have h := C3_phase_invariant_amended.1 (.const 1) 0 (1 / 2) 1 (by norm_num)
    (by norm_num) (by norm_num [Wave.next, Wave.nextAux]) (by norm_num)
  exact ⟨h.1, h.2.2.1, h.2.2.2⟩

/-- Claim C5: Delayed keeps its own time accumulator; while accumulated
time stays below the delay the call returns end-of-stream and leaves the
child untouched, except that on the call whose accumulated time first
strictly crosses the delay the child is advanced exactly once by the
overshoot (accumulated time minus delay) with the result discarded; once
accumulated time has reached the delay, every call advances the child by
the normal step and returns its value directly. -/
theorem C5_delayed_behavior :
    (∀ w : Wave, ∀ dl t s : ℚ, t < dl →
      (Wave.next (.Delayed w dl t) s).1 = none) ∧
    (∀ w : Wave, ∀ dl t s : ℚ, t < dl → t + s ≤ dl →
      (Wave.next (.Delayed w dl t) s).2 = .Delayed w dl (t + s)) ∧
    (∀ w : Wave, ∀ dl t s : ℚ, t < dl → dl < t + s →
      (Wave.next (.Delayed w dl t) s).2 =
        .Delayed (Wave.next w (t + s - dl)).2 dl (t + s)) ∧
    (∀ w : Wave, ∀ dl t s : ℚ, dl ≤ t →
      Wave.next (.Delayed w dl t) s =
        ((Wave.next w s).1, .Delayed (Wave.next w s).2 dl t)) := by
  refine ⟨?_, ?_, ?_, ?_⟩
  · intro w dl t s h
    simp only [Wave.next, Wave.nextAux, Bool.false_eq_true, if_false]
    rw [if_neg (not_le.mpr h)]
    split_ifs <;> rfl
  · intro w dl t s h h2
    simp only [Wave.next, Wave.nextAux, Bool.false_eq_true, if_false]
    rw [if_neg (not_le.mpr h), if_neg (not_lt.mpr h2)]
    simp [Wave.resetIf]
  · intro w dl t s h h2
    simp only [Wave.next, Wave.nextAux, Bool.false_eq_true, if_false]
    rw [if_neg (not_le.mpr h), if_pos h2]
  · intro w dl t s h
    simp only [Wave.next, Wave.nextAux, Bool.false_eq_true, if_false]
    rw [if_pos h]

theorem C5_delayed_behavior_witness :
    (Wave.next (.Delayed (.const 7) 1 0) (1 / 2)).1 = none ∧
    (Wave.next (.Delayed (.const 7) 1 0) (1 / 2)).2 = .Delayed (.const 7) 1 (1 / 2) ∧
    (Wave.next (.Delayed (.const 7) 1 0) 2).2 =
      .Delayed (Wave.next (.const 7) 1).2 1 2 ∧
    Wave.next (.Delayed (.const 7) 1 1) 1 =
      ((Wave.next (.const 7) 1).1, .Delayed (Wave.next (.const 7) 1).2 1 1) := by
  refine ⟨C5_delayed_behavior.1 (.const 7) 1 0 (1 / 2) (by norm_num), ?_, ?_,
    C5_delayed_behavior.2.2.2 (.const 7) 1 1 1 (by norm_num)⟩
  · have h := C5_delayed_behavior.2.1 (.const 7) 1 0 (1 / 2) (by norm_num) (by norm_num)
    rw [h]
    norm_num
  · have h := C5_delayed_behavior.2.2.1 (.const 7) 1 0 2 (by norm_num) (by norm_num)
    rw [h]
    norm_num

/-- Claim C10: on the Delayed call where accumulated time lands exactly on
the delay (the overshoot comparison is strict), the call returns
end-of-stream and the child is left entirely unchanged — no corrective
advance — and the child is advanced for the first time on the following
call, by the full step. -/
theorem C10_delayed_exact_boundary (w : Wave) (dl t s s2 : ℚ)
    (h1 : t < dl) (h2 : t + s = dl) :
    Wave.next (.Delayed w dl t) s = (none, .Delayed w dl dl) ∧
    Wave.next (.Delayed w dl dl) s2 =
      ((Wave.next w s2).1, .Delayed (Wave.next w s2).2 dl dl) := by
  constructor
  · simp only [Wave.next, Wave.nextAux, Bool.false_eq_true, if_false]
    rw [if_neg (not_le.mpr h1), h2, if_neg (lt_irrefl dl)]
    simp [Wave.resetIf]
  · simp only [Wave.next, Wave.nextAux, Bool.false_eq_true, if_false]
    rw [if_pos (le_refl dl)]

theorem C10_delayed_exact_boundary_witness :
    Wave.next (.Delayed (.const 3) 1 (1 / 2)) (1 / 2) =
      (none, .Delayed (.const 3) 1 1) ∧
    Wave.next (.Delayed (.const 3) 1 1) 1 =
      ((Wave.next (.const 3) 1).1, .Delayed (Wave.next (.const 3) 1).2 1 1) :=
  C10_delayed_exact_boundary (.const 3) 1 (1 / 2) (1 / 2) 1 (by norm_num)
    (by norm_num)

/-- Claim C6: every Looped next call advances the child; if the child ends,
Looped resets the child and re-advances it exactly once, returning that
second result as the call's result (so an empty-after-reset child gives
end-of-stream for the call, with no further retries inside the call); and
Looped never permanently ends for a child that yields a sample
immediately after reset at each used step. -/
theorem C6_looped_behavior :
    (∀ w : Wave, ∀ s v : ℚ, ∀ w' : Wave, Wave.next w s = (some v, w') →
      Wave.next (.Looped w) s = (some v, .Looped w')) ∧
    (∀ w : Wave, ∀ s : ℚ, (Wave.next w s).1 = none →
      Wave.next (.Looped w) s =
        ((Wave.next ((Wave.next w s).2).reset s).1,
         .Looped (Wave.next ((Wave.next w s).2).reset s).2)) ∧
    (∀ w : Wave, ∀ steps : List ℚ,
      (∀ s ∈ steps, (Wave.next w.reset s).1.isSome = true) →
      ∀ o ∈ Wave.runOutputs (.Looped w) steps, o.isSome = true) := by
  refine ⟨?_, ?_, ?_⟩
  · intro w s v w' h
    rw [Wave.next_Looped_eq, h]
  · intro w s h
    rcases h' : Wave.next w s with ⟨o, w1⟩
    rw [h'] at h
    simp only at h
    subst h
    rw [Wave.next_Looped_eq, h']
  · have main : ∀ steps : List ℚ, ∀ w c : Wave, c.reset = w.reset →
        (∀ s ∈ steps, (Wave.next w.reset s).1.isSome = true) →
        ∀ o ∈ Wave.runOutputs (.Looped c) steps, o.isSome = true := by
      intro steps
      induction steps with
      | nil => intro w c hc hs o ho; simp [Wave.runOutputs, Wave.run] at ho
      | cons s rest ih =>
          intro w c hc hs o ho
          simp only [Wave.runOutputs, Wave.run, List.mem_cons] at ho
          rcases h1 : Wave.next c s with ⟨o1, c1⟩
          have hc1 : c1.reset = w.reset := by
            have := Wave.reset_next c s
            rw [h1] at this
            rw [this, hc]
          cases o1 with
          | some v =>
              have hnl : Wave.next (.Looped c) s = (some v, .Looped c1) := by
                rw [Wave.next_Looped_eq, h1]
              rw [hnl] at ho
              rcases ho with ho | ho
              · subst ho; simp
              · exact ih w c1 hc1 (fun s2 hs2 => hs s2 (List.mem_cons_of_mem s hs2))
                  o (by simpa [Wave.runOutputs] using ho)
          | none =>
              have hnl : Wave.next (.Looped c) s =
                  ((Wave.next c1.reset s).1, .Looped (Wave.next c1.reset s).2) := by
                rw [Wave.next_Looped_eq, h1]
              rw [hnl] at ho
              rcases ho with ho | ho
              · subst ho
                rw [hc1]
                exact hs s (List.mem_cons_self s rest)
              · have hc2 : ((Wave.next c1.reset s).2).reset = w.reset := by
                  rw [Wave.reset_next, Wave.reset_reset, hc1]
                exact ih w (Wave.next c1.reset s).2 hc2
                  (fun s2 hs2 => hs s2 (List.mem_cons_of_mem s hs2))
                  o (by simpa [Wave.runOutputs] using ho)
    intro w steps hs
    exact main steps w w rfl hs

theorem C6_looped_behavior_witness :
    Wave.next (.Looped (.const 4)) 1 = (some 4, .Looped (.const 4)) ∧
    (Wave.next (.Looped (.Adshr 1 0 0 0 0 1)) 1 =
      ((Wave.next ((Wave.next (.Adshr 1 0 0 0 0 1) 1).2).reset 1).1,
       .Looped (Wave.next ((Wave.next (.Adshr 1 0 0 0 0 1) 1).2).reset 1).2)) ∧
    (∀ o ∈ Wave.runOutputs (.Looped (.Adshr 1 0 0 0 0 0)) [1, 1], o.isSome = true) := by
  refine ⟨C6_looped_behavior.1 (.const 4) 1 4 (.const 4)
      (by norm_num [Wave.next, Wave.nextAux]),
    C6_looped_behavior.2.1 (.Adshr 1 0 0 0 0 1) 1
      (by norm_num [Wave.next, Wave.nextAux]),
    C6_looped_behavior.2.2 (.Adshr 1 0 0 0 0 0) [1, 1] ?_⟩
  intro s hs
  have : s = 1 := by simpa using hs
  subst this
  norm_num [Wave.next, Wave.nextAux, Wave.reset]

/-- One next call of a triangle node leaves a triangle node whose stored
phase stays strictly between -1 and 1 (the truncated remainder by 1 always
lands there, and a call that ends early keeps the phase unchanged). -/
theorem Wave.triangle_phase_step (f d : Wave) (p s : ℚ)
    (h1 : -1 < p) (h2 : p < 1) :
    ∃ f' d' p', (Wave.next (.TriangleWave f d p) s).2 = .TriangleWave f' d' p' ∧
      -1 < p' ∧ p' < 1 := by
  rcases hf : Wave.nextAux false f s with ⟨of, f1⟩
  cases of with
  | none =>
      exact ⟨f1, Wave.resetIf false d, p,
        by simp [Wave.next, Wave.nextAux, hf], h1, h2⟩
  | some fv =>
      rcases hd : Wave.nextAux false d s with ⟨od, d1⟩
      cases od with
      | none =>
          exact ⟨f1, d1, p, by simp [Wave.next, Wave.nextAux, hf, hd], h1, h2⟩
      | some dv =>
          refine ⟨f1, d1, fmod ((if false = true then 0 else p) + fv * s) 1,
            by simp [Wave.next, Wave.nextAux, hf, hd],
            fmod_one_gt_neg_one _, fmod_one_lt_one _⟩

/-- Any run of a triangle node keeps it a triangle node with stored phase
strictly between -1 and 1. -/
theorem Wave.triangle_phase_inv (steps : List ℚ) :
    ∀ (f d : Wave) (p : ℚ), -1 < p → p < 1 →
    ∃ f' d' p', Wave.runState (.TriangleWave f d p) steps = .TriangleWave f' d' p' ∧
      -1 < p' ∧ p' < 1 := by
  induction steps with
  | nil => intro f d p h1 h2; exact ⟨f, d, p, rfl, h1, h2⟩
  | cons s0 rest ih =>
      intro f d p h1 h2
      rcases Wave.triangle_phase_step f d p s0 h1 h2 with ⟨f', d', p', hst, hp1, hp2⟩
      have hrun : Wave.runState (.TriangleWave f d p) (s0 :: rest) =
          Wave.runState (.TriangleWave f' d' p') rest := by
        simp only [Wave.runState, Wave.run]
        rw [hst]
      rw [hrun]
      exact ih f' d' p' hp1 hp2

/-- Claim C8 as stated is false in its duty-1 half: for a triangle
oscillator started fresh, with any frequency and duty sub-waves and any
step sequence, no call on which the duty value resolves to exactly 1 ever
evaluates a quotient with denominator zero, because the stored phase is
always strictly below 1, so the branch taken divides by the duty value 1,
not by 1 - duty = 0. -/
theorem C8_triangle_div_zero_counterexample :
    ¬ ∃ (f d : Wave) (steps : List ℚ) (s den : ℚ),
        Wave.triCall (Wave.runState (.TriangleWave f d 0) steps) s =
          some (1, den) ∧ den = 0 := by
  rintro ⟨f, d, steps, s, den, hcall, hden⟩
  subst hden
  rcases Wave.triangle_phase_inv steps f d 0 (by norm_num) (by norm_num) with
    ⟨f', d', p', hstate, hp1, hp2⟩
  rw [hstate] at hcall
  simp only [Wave.triCall] at hcall
  rcases hf : (Wave.next f' s).1 with _ | fv
  · rw [hf] at hcall; exact absurd hcall (by simp)
  · rw [hf] at hcall
    rcases hd2 : (Wave.next d' s).1 with _ | dv
    · rw [hd2] at hcall; exact absurd hcall (by simp)
    · rw [hd2] at hcall
      simp only [Option.some.injEq, Prod.mk.injEq] at hcall
      rcases hcall with ⟨hdv, hzero⟩
      subst hdv
      rw [if_pos hp2] at hzero
      norm_num at hzero

/-- Claim C8 (amended): for the Triangle oscillator with duty exactly 0,
the ramp formula of next does divide by zero on a reachable call — once the
stored phase has gone negative (reachable with a negative frequency), the
branch taken evaluates the quotient 2 * phase / duty whose denominator is
the duty value 0 — and the source does not guard against this.  (With duty
exactly 1 the complementary branch is never taken, see the counterexample.) -/
theorem C8_triangle_div_zero_amended :
    Wave.triCall
        (Wave.runState (.TriangleWave (.const (-1)) (.const 0) 0) [1 / 2])
        (1 / 2) = some (0, 0) := by
  have hm : fmod (-(1 / 2) : ℚ) 1 = -(1 / 2) := by
    have hc : ⌈(-(1 / 2) : ℚ)⌉ = 0 := by norm_num
    unfold fmod rtrunc
    rw [div_one, if_neg (by norm_num), hc]
    norm_num
  norm_num [Wave.triCall, Wave.runState, Wave.run, Wave.next, Wave.nextAux, hm]

/-!
Embedding of the expression language of examples/playsound.rs.  The nom
combinators operate on byte slices and produce either a value with the
remaining input, or a failure; both nom failure kinds (Error and
Incomplete) make main reject the specification, so a parse result is
modelled as Option (value, remaining input).  Each named nom production
becomes a function of the same name; the recursive grammar is driven by a
fuel argument (one more than the input length always suffices, since every
recursive descent first consumes at least one byte of tag). -/

/-- A parse result: the parsed value and the remaining input, or failure. -/
abbrev Pp (α : Type) : Type := List Char → Option (α × List Char)

/-- nom char!: consumes exactly the given character. -/
def pChar (c : Char) : Pp Char := fun input =>
  match input with
  | [] => none
  | x :: rest => if x = c then some (c, rest) else none

/-- nom tag!: consumes exactly the given byte sequence. -/
def pTag (t : List Char) : Pp Unit := fun input =>
  if t.isPrefixOf input then some ((), List.drop t.length input) else none

/-- nom opt!: always succeeds, consuming nothing on inner failure. -/
def pOpt {α : Type} (p : Pp α) : Pp (Option α) := fun input =>
  match p input with
  | some (a, rest) => some (some a, rest)
  | none => some (none, input)

/-- nom alt!: tries the left parser, then the right one on failure. -/
def pAlt {α : Type} (p q : Pp α) : Pp α := fun input =>
  match p input with
  | some r => some r
  | none => q input

/-- nom pair!: runs two parsers in sequence. -/
def pSeq {α β : Type} (p : Pp α) (q : Pp β) : Pp (α × β) := fun input =>
  match p input with
  | none => none
  | some (a, rest) =>
      match q rest with
      | none => none
      | some (b, rest2) => some ((a, b), rest2)

/-- nom map!: transforms the parsed value. -/
def pMap {α β : Type} (f : α → β) (p : Pp α) : Pp β := fun input =>
  match p input with
  | none => none
  | some (a, rest) => some (f a, rest)

/-- nom preceded!: sequence, keeping only the second value. -/
def pPreceded {α β : Type} (p : Pp α) (q : Pp β) : Pp β :=
  pMap Prod.snd (pSeq p q)

/-- nom delimited!: a value between an opening and a closing parser. -/
def pDelimited {α β γ : Type} (op : Pp α) (mid : Pp β) (cl : Pp γ) : Pp β :=
  pMap (fun r => r.1.2) (pSeq (pSeq op mid) cl)

/-- nom separated_pair!: two values split by a separator. -/
def pSepPair {α β γ : Type} (p : Pp α) (sep : Pp β) (q : Pp γ) : Pp (α × γ) :=
  pMap (fun r => (r.1.1, r.2)) (pSeq (pSeq p sep) q)

/-- nom many0!, with fuel: applies the parser as often as it succeeds.
Every wave_suffix consumes at least one byte, so fuel of one more than the
remaining input length makes the fuel bound unreachable. -/
def pMany0 {α : Type} (p : Pp α) : ℕ → Pp (List α)
  | 0 => fun input => some ([], input)
  | n + 1 => fun input =>
      match p input with
      | none => some ([], input)
      | some (a, rest) =>
          match pMany0 p n rest with
          | none => none
          | some (as2, rest2) => some (a :: as2, rest2)

/-- nom digit: one or more ASCII digits. -/
def pDigits : Pp (List Char) := fun input =>
  let ds := List.takeWhile (fun c => c.isDigit) input
  if ds.isEmpty then none else some (ds, List.drop ds.length input)

/-- Numeric value of a digit string. -/
def digitsToNat (ds : List Char) : ℕ :=
  List.foldl (fun acc c => 10 * acc + (c.toNat - 48)) 0 ds

/-- float_literal: optional minus sign, digits, optional dot-and-digits,
converted to its exact numeric value (the f32 rounding of from_str is
idealized away, as all sample values are). -/
def float_literal : Pp ℚ := fun input =>
  match pOpt (pChar '-') input with
  | none => none
  | some (sgn, i1) =>
      match pDigits i1 with
      | none => none
      | some (ds, i2) =>
          match pOpt (pSeq (pChar '.') pDigits) i2 with
          | none => none
          | some (frOpt, i3) =>
              let ip : ℚ := (digitsToNat ds : ℕ)
              let q : ℚ :=
                match frOpt with
                | none => ip
                | some (_, fs) =>
                    ip + (digitsToNat fs : ℕ) / (10 : ℚ) ^ fs.length
              some (if sgn.isSome then -q else q, i3)

/-- The suffix operators of the expression language (enum WaveOp). -/
inductive WaveOp : Type where
  | Add : Wave → WaveOp
  | Adshr : ℚ → ℚ → ℚ → ℚ → ℚ → WaveOp
  | Delayed : ℚ → WaveOp
  | Looped : WaveOp
  | Mul : Wave → WaveOp
deriving DecidableEq

/-- WaveOp::apply: applies one suffix operator to the wave built so far. -/
def WaveOp.apply : WaveOp → Wave → Wave
  | .Add other, w => Wave.add w other
  | .Adshr a d su h r, w => Wave.adshr w a d su h r
  | .Delayed t, w => Wave.delayed w t
  | .Looped, w => Wave.looped w
  | .Mul other, w => Wave.mul w other

/-- const_wave: a bare float literal is an infinite constant wave. -/
def const_wave : Pp Wave := pMap Wave.const float_literal

/-- noise_wave, parameterized by the parser for nested expressions. -/
def noise_wave (rec : Pp Wave) : Pp Wave :=
  pMap Wave.noise
    (pPreceded (pTag ([ 'n', 'o', 'i', 's', 'e' ]))
      (pDelimited (pChar '(') rec (pChar ')')))

/-- product_wave: mul(expr,expr). -/
def product_wave (rec : Pp Wave) : Pp Wave :=
  pMap (fun r => Wave.mul r.1 r.2)
    (pPreceded (pTag ([ 'm', 'u', 'l' ]))
      (pDelimited (pChar '(') (pSepPair rec (pChar ',') rec) (pChar ')')))

/-- pulse_wave: pulse(expr,expr). -/
def pulse_wave (rec : Pp Wave) : Pp Wave :=
  pMap (fun r => Wave.pulse r.1 r.2)
    (pPreceded (pTag ([ 'p', 'u', 'l', 's', 'e' ]))
      (pDelimited (pChar '(') (pSepPair rec (pChar ',') rec) (pChar ')')))

/-- sine_wave: sine(expr). -/
def sine_wave (rec : Pp Wave) : Pp Wave :=
  pMap Wave.sine
    (pPreceded (pTag ([ 's', 'i', 'n', 'e' ]))
      (pDelimited (pChar '(') rec (pChar ')')))

/-- slide_wave: slide(number,number,number). -/
def slide_wave : Pp Wave :=
  pMap (fun r => Wave.slide r.1.1 r.1.2 r.2)
    (pPreceded (pTag ([ 's', 'l', 'i', 'd', 'e' ]))
      (pDelimited (pChar '(')
        (pSepPair (pSepPair float_literal (pChar ',') float_literal)
          (pChar ',') float_literal)
        (pChar ')')))

/-- sum_wave: add(expr,expr). -/
def sum_wave (rec : Pp Wave) : Pp Wave :=
  pMap (fun r => Wave.add r.1 r.2)
    (pPreceded (pTag ([ 'a', 'd', 'd' ]))
      (pDelimited (pChar '(') (pSepPair rec (pChar ',') rec) (pChar ')')))

/-- triangle_wave: triangle(expr,expr). -/
def triangle_wave (rec : Pp Wave) : Pp Wave :=
  pMap (fun r => Wave.triangle r.1 r.2)
    (pPreceded (pTag ([ 't', 'r', 'i', 'a', 'n', 'g', 'l', 'e' ]))
      (pDelimited (pChar '(') (pSepPair rec (pChar ',') rec) (pChar ')')))

/-- base_wave: the alternatives in source order. -/
def base_wave (rec : Pp Wave) : Pp Wave :=
  pAlt const_wave (pAlt (noise_wave rec) (pAlt (product_wave rec)
    (pAlt (pulse_wave rec) (pAlt (sine_wave rec)
      (pAlt slide_wave (pAlt (sum_wave rec) (triangle_wave rec)))))))

/-- add_suffix: .add(expr). -/
def add_suffix (rec : Pp Wave) : Pp WaveOp :=
  pMap WaveOp.Add
    (pPreceded (pTag ([ '.', 'a', 'd', 'd' ]))
      (pDelimited (pChar '(') rec (pChar ')')))

/-- adshr_suffix: .adshr(number,number,number,number,number). -/
def adshr_suffix : Pp WaveOp :=
  pMap (fun r => WaveOp.Adshr r.1.1 r.1.2 r.2.1.1 r.2.1.2 r.2.2)
    (pPreceded (pTag ([ '.', 'a', 'd', 's', 'h', 'r' ]))
      (pDelimited (pChar '(')
        (pSepPair (pSepPair float_literal (pChar ',') float_literal)
          (pChar ',')
          (pSepPair (pSepPair float_literal (pChar ',') float_literal)
            (pChar ',') float_literal))
        (pChar ')')))

/-- delayed_suffix: .delayed(number). -/
def delayed_suffix : Pp WaveOp :=
  pMap WaveOp.Delayed
    (pPreceded (pTag ([ '.', 'd', 'e', 'l', 'a', 'y', 'e', 'd' ]))
      (pDelimited (pChar '(') float_literal (pChar ')')))

/-- looped_suffix: the fixed token .looped(). -/
def looped_suffix : Pp WaveOp :=
  pMap (fun _ => WaveOp.Looped)
    (pTag ([ '.', 'l', 'o', 'o', 'p', 'e', 'd', '(', ')' ]))

/-- mul_suffix: .mul(expr). -/
def mul_suffix (rec : Pp Wave) : Pp WaveOp :=
  pMap WaveOp.Mul
    (pPreceded (pTag ([ '.', 'm', 'u', 'l' ]))
      (pDelimited (pChar '(') rec (pChar ')')))

/-- wave_suffix: the suffix alternatives in source order. -/
def wave_suffix (rec : Pp Wave) : Pp WaveOp :=
  pAlt (add_suffix rec) (pAlt adshr_suffix (pAlt delayed_suffix
    (pAlt looped_suffix (mul_suffix rec))))

/-- any_wave: a base waveform followed by any number of suffix operators,
folded left-to-right over the wave built so far (with recursion fuel). -/
def any_wave : ℕ → Pp Wave
  | 0 => fun _ => none
  | n + 1 => fun input =>
      match base_wave (any_wave n) input with
      | none => none
      | some (w, rest) =>
          match pMany0 (wave_suffix (any_wave n)) (rest.length + 1) rest with
          | none => none
          | some (ops, rest2) =>
              some (List.foldl (fun wv op => WaveOp.apply op wv) w ops, rest2)

/-- The acceptance test of main: the parse must succeed and consume the
entire input, otherwise no graph at all is produced. -/
def parseWaveSpec (input : List Char) : Option Wave :=
  match any_wave (input.length + 1) input with
  | some (w, []) => some w
  | _ => none

/-- Claim C9: a textual waveform specification is accepted only when the
whole input parses and is consumed — any trailing text or syntactic
mismatch yields no graph at all; sine(440) parses to a Sine generator over
the constant 440, the unbalanced sine(440 is rejected, and
sine(440).looped() parses to that sine wrapped in Looped. -/
theorem C9_parser_full_consumption :
    parseWaveSpec ([ 's', 'i', 'n', 'e', '(', '4', '4', '0', ')' ]) =
      some (Wave.sine (.const 440)) ∧
    parseWaveSpec ([ 's', 'i', 'n', 'e', '(', '4', '4', '0' ]) = none ∧
    parseWaveSpec ([ 's', 'i', 'n', 'e', '(', '4', '4', '0', ')',
        '.', 'l', 'o', 'o', 'p', 'e', 'd', '(', ')' ]) =
      some (Wave.looped (Wave.sine (.const 440))) ∧
    (∀ input : List Char, ∀ w : Wave, parseWaveSpec input = some w →
      any_wave (input.length + 1) input = some (w, [])) ∧
    (∀ input rest : List Char, ∀ w : Wave,
      any_wave (input.length + 1) input = some (w, rest) → rest ≠ [] →
      parseWaveSpec input = none) := by
  refine ⟨by decide, by decide, by decide, ?_, ?_⟩
  · intro input w h
    unfold parseWaveSpec at h
    rcases ha : any_wave (input.length + 1) input with _ | ⟨w2, rest⟩
    · rw [ha] at h; exact absurd h (by simp)
    · rw [ha] at h
      cases rest with
      | nil =>
          have hw : w2 = w := by simpa using h
          rw [hw]
      | cons c cs => exact absurd h (by simp)
  · intro input rest w h hne
    unfold parseWaveSpec
    rw [h]
    cases rest with
    | nil => exact absurd rfl hne
    | cons c cs => simp

theorem C9_parser_full_consumption_witness :
    any_wave (([ 's', 'i', 'n', 'e', '(', '4', '4', '0', ')' ] :
        List Char).length + 1) ([ 's', 'i', 'n', 'e', '(', '4', '4', '0', ')' ]) =
      some (Wave.sine (.const 440), []) :=
  C9_parser_full_consumption.2.2.2.1
    ([ 's', 'i', 'n', 'e', '(', '4', '4', '0', ')' ])
    (Wave.sine (.const 440)) C9_parser_full_consumption.1

end Itersynth
